import Mathlib

/-!
# Verification of the decoration container (`src/decoration.ts`)

This file is a shallow embedding, in Lean 4, of the decoration data
structures and algorithms of `decoration.ts`: decorations and their
descriptors, position mapping through document changes, the persistent
`DecorationSet` tree with its `update` / `map` algorithms and helpers
(`filterDecorations`, `collapseSet`, `appendDecorations`,
`rebalanceChildren`, `touchesChange`), the binary heap (`addToHeap`,
`takeFromHeap`), the dirty-range accumulator (`addRange`) and the
`changedRanges` driver.

Modelling conventions:
* JavaScript numbers are modelled as `Int` (all the arithmetic in this
  module is integer arithmetic).
* JavaScript reference equality tests between immutable tree values
  (`newChild != child`, `this != other`) are modelled as structural
  equality.  Reference equality implies structural equality, and the
  branches guarded by these tests build structurally equal results, so
  the modelled functions compute the same tree values.
* A thrown exception / out-of-bounds array read is modelled by `Option`
  (`none` = failure), and the non-structural recursion of the `update`
  family is modelled with an explicit fuel parameter (`none` = fuel ran
  out; with enough fuel the fueled function computes the source's
  result).
* The opaque user `spec` payload attached to a decoration is modelled by
  an integer (`payload`); no embedded code path inspects it other than
  handing it to filter predicates.
-/

set_option maxRecDepth 1000000

/-- The bias magnitude `BIG_BIAS = 2e9` used by range descriptors. -/
def BIG_BIAS : Int := 2000000000

/-- Descriptor attached to a decoration.  A `rangeDesc` corresponds to
`RangeDesc` (derived from `{inclusiveStart?, inclusiveEnd?, ...}`), a
`pointDesc` to `PointDesc` (derived from `{side?, ...}`).  The opaque
spec payload is carried as an integer. -/
inductive DecorationDesc where
  | rangeDesc (inclusiveStart inclusiveEnd : Bool) (payload : Int)
  | pointDesc (side : Int) (payload : Int)
deriving DecidableEq

/-- Start bias: `spec.inclusiveStart === true ? -BIG_BIAS : BIG_BIAS` for
ranges, `spec.side || 0` for points. -/
def DecorationDesc.bias : DecorationDesc → Int
  | .rangeDesc inclusiveStart _ _ => if inclusiveStart then -BIG_BIAS else BIG_BIAS
  | .pointDesc side _ => side

/-- End bias: `spec.inclusiveEnd == true ? BIG_BIAS : -BIG_BIAS` for
ranges.  Point descriptors have no end bias in the source; we return the
side, which is never consulted. -/
def DecorationDesc.endBias : DecorationDesc → Int
  | .rangeDesc _ inclusiveEnd _ => if inclusiveEnd then BIG_BIAS else -BIG_BIAS
  | .pointDesc side _ => side

/-- The opaque spec payload (`get spec()` on the source classes). -/
def DecorationDesc.payloadOf : DecorationDesc → Int
  | .rangeDesc _ _ p => p
  | .pointDesc _ p => p

/-- A decoration: the immutable triple `(from, to, desc)`.  The source's
field names `from`/`to` are Lean keywords, hence `dFrom`/`dTo`. -/
structure Decoration where
  dFrom : Int
  dTo : Int
  desc : DecorationDesc
deriving DecidableEq

/-- `get spec()` of `Decoration`. -/
def Decoration.spec (d : Decoration) : Int := d.desc.payloadOf

/-- `move(offset)`: `offset ? new Decoration(from + offset, to + offset, desc) : this`. -/
def Decoration.move (d : Decoration) (offset : Int) : Decoration :=
  if offset ≠ 0 then ⟨d.dFrom + offset, d.dTo + offset, d.desc⟩ else d

/-- `get heapPos()` of `Decoration`: its end position. -/
def Decoration.heapPos (d : Decoration) : Int := d.dTo

/-- `Decoration.range(from, to, spec)`: throws (`none`) when `from >= to`,
otherwise builds the range decoration.  The spec argument is the triple
`(inclusiveStart, inclusiveEnd, payload)`. -/
def Decoration.range (f t : Int) (inclusiveStart inclusiveEnd : Bool) (payload : Int) :
    Option Decoration :=
  if f ≥ t then none
  else some ⟨f, t, .rangeDesc inclusiveStart inclusiveEnd payload⟩

/-- `Decoration.point(pos, spec)`: always succeeds, `from == to == pos`. -/
def Decoration.point (pos : Int) (side : Int) (payload : Int) : Decoration :=
  ⟨pos, pos, .pointDesc side payload⟩

/-- A document change, as consumed through the external change-log
interface: `from`, `to` and the inserted text length. -/
structure Change where
  cFrom : Int
  cTo : Int
  insLen : Int
deriving DecidableEq

/-- Modelled from the spec: the external change log's
`change.mapPos(pos, assoc)` primitive (the `state` module is outside
this repository; only its interface `(from, to, insertedLength,
mapPos(pos, assoc))` is given).  A position before the change is
unchanged, a position after it is shifted by the length delta, and a
position inside the replaced region sticks to the side selected by the
sign of `assoc` (negative bias stays before inserted text, positive
stays after), positions at the boundaries staying outside the
replacement. -/
def Change.mapPos (c : Change) (pos : Int) (assoc : Int) : Int :=
  if pos < c.cFrom then pos
  else if pos = c.cFrom then (if assoc > 0 then c.cFrom + c.insLen else pos)
  else if pos < c.cTo then (if assoc < 0 then c.cFrom else c.cFrom + c.insLen)
  else pos + c.insLen - (c.cTo - c.cFrom)

/-- Well-formed change: coordinates are valid document positions and the
inserted length is non-negative (malformed change lists are undefined
behaviour per the spec). -/
def Change.wellFormed (c : Change) : Prop :=
  0 ≤ c.cFrom ∧ c.cFrom ≤ c.cTo ∧ 0 ≤ c.insLen

instance (c : Change) : Decidable c.wellFormed := by
  unfold Change.wellFormed; infer_instance

/-- `mapPos(pos, changes, assoc, track)` from the source: folds the
position through the change list; with `track` set it returns the
sentinel `-1` as soon as the position reached so far lies strictly
inside a change's deleted region. -/
def mapPos (pos : Int) (changes : List Change) (assoc : Int)
    (track : Bool := false) : Int :=
  match changes with
  | [] => pos
  | c :: rest =>
      if track ∧ c.cFrom < pos ∧ c.cTo > pos then -1
      else mapPos (c.mapPos pos assoc) rest assoc track

/-- `RangeDesc.map` / `PointDesc.map` dispatched through
`Decoration.map(changes, oldOffset, newOffset)`, translated from the
source. -/
def Decoration.map (d : Decoration) (changes : List Change)
    (oldOffset newOffset : Int) : Option Decoration :=
  match d.desc with
  | .rangeDesc _ _ _ =>
      let f := mapPos (d.dFrom + oldOffset) changes d.desc.bias
      let t := mapPos (d.dTo + oldOffset) changes d.desc.endBias
      if f < t then some ⟨f - newOffset, t - newOffset, d.desc⟩ else none
  | .pointDesc _ _ =>
      let pos := mapPos (d.dFrom + oldOffset) changes d.desc.bias true
      if pos = -1 then none else some ⟨pos - newOffset, pos - newOffset, d.desc⟩

/-- Reference definition (from the spec's words) of tracked position
mapping: map the position through the changes in order, returning `none`
exactly when the position reached before some change lies strictly
inside that change's deleted region. -/
def refTrackPos (pos : Int) (changes : List Change) (assoc : Int) : Option Int :=
  match changes with
  | [] => some pos
  | c :: rest =>
      if c.cFrom < pos ∧ c.cTo > pos then none
      else refTrackPos (c.mapPos pos assoc) rest assoc

/-- Reference definition (from the spec's words) of decoration mapping:
dispatch on the descriptor variant; a range maps its two endpoints with
the start/end biases and is dropped when it collapses; a point is mapped
with tracking and dropped when the tracked mapping fails. -/
def refDecorationMap (d : Decoration) (changes : List Change)
    (oldOffset newOffset : Int) : Option Decoration :=
  match d.desc with
  | .rangeDesc _ _ _ =>
      let f := mapPos (d.dFrom + oldOffset) changes d.desc.bias
      let t := mapPos (d.dTo + oldOffset) changes d.desc.endBias
      if f < t then some ⟨f - newOffset, t - newOffset, d.desc⟩ else none
  | .pointDesc _ _ =>
      (refTrackPos (d.dFrom + oldOffset) changes d.desc.bias).map
        (fun p => ⟨p - newOffset, p - newOffset, d.desc⟩)

/-- The `Heapable` interface: a heap element exposes `heapPos` and (via
its descriptor) `desc.bias`; we record exactly those two fields. -/
structure Heapable where
  heapPos : Int
  bias : Int
deriving DecidableEq

/-- Placeholder element used for (in-bounds) array reads. -/
def hDummy : Heapable := ⟨0, 0⟩

/-- `compareHeapable(a, b) = a.heapPos - b.heapPos || a.desc.bias - b.desc.bias`
(the JS `||` yields the first operand when it is non-zero). -/
def compareHeapable (a b : Heapable) : Int :=
  if a.heapPos - b.heapPos ≠ 0 then a.heapPos - b.heapPos else a.bias - b.bias

/-- The sift-up loop of `addToHeap`: note the source computes the parent
of `index` as `index >> 1` (written `index / 2` here).  The loop is
iterated on a fuel counter; `index` at least halves per step, so fuel
`index + 1` always suffices. -/
def addToHeapLoop (fuel : Nat) (heap : Array Heapable) (elt : Heapable)
    (index : Nat) : Array Heapable :=
  match fuel with
  | 0 => heap
  | fuel + 1 =>
      if index > 0 then
        let parentIndex := index / 2
        let parent := heap.getD parentIndex hDummy
        if compareHeapable elt parent ≥ 0 then heap
        else addToHeapLoop fuel ((heap.setD index parent).setD parentIndex elt)
          elt parentIndex
      else heap

/-- `addToHeap(heap, elt)`: push, then sift up. -/
def addToHeap (heap : Array Heapable) (elt : Heapable) : Array Heapable :=
  let heap := heap.push elt
  addToHeapLoop heap.size heap elt (heap.size - 1)

/-- The sift-down loop of `takeFromHeap`, with children at `2*index+1`
and `2*index+2`.  `index` strictly increases and stays below the array
size, so fuel `heap.size` always suffices. -/
def takeFromHeapLoop (fuel : Nat) (heap : Array Heapable)
    (replacement : Heapable) (index : Nat) : Array Heapable :=
  match fuel with
  | 0 => heap
  | fuel + 1 =>
      let childIndex := 2 * index + 1
      if childIndex ≥ heap.size then heap
      else
        let child := heap.getD childIndex hDummy
        if childIndex + 1 < heap.size ∧
            compareHeapable child (heap.getD (childIndex + 1) hDummy) ≥ 0 then
          let child := heap.getD (childIndex + 1) hDummy
          if compareHeapable replacement child < 0 then heap
          else takeFromHeapLoop fuel
            ((heap.setD (childIndex + 1) replacement).setD index child)
            replacement (childIndex + 1)
        else
          if compareHeapable replacement child < 0 then heap
          else takeFromHeapLoop fuel
            ((heap.setD childIndex replacement).setD index child)
            replacement childIndex

/-- `takeFromHeap(heap)`: return the root, move the last element to the
root and sift it down. -/
def takeFromHeap (heap : Array Heapable) : Heapable × Array Heapable :=
  let elt := heap.getD 0 hDummy
  let replacement := heap.getD (heap.size - 1) hDummy
  let heap := heap.pop
  if heap.size = 0 then (elt, heap)
  else (elt, takeFromHeapLoop heap.size (heap.setD 0 replacement) replacement 0)

/-- The binary-heap ordering property claimed by the spec: the element
at index `i` compares `<= 0` (under `compareHeapable`) against its
children at `2*i+1` and `2*i+2`. -/
def heapOrderedAt (heap : Array Heapable) (i j : Nat) : Bool :=
  if j < heap.size then
    decide (compareHeapable (heap.getD i hDummy) (heap.getD j hDummy) ≤ 0)
  else true

/-- Whole-array binary-heap property. -/
def heapProperty (heap : Array Heapable) : Bool :=
  (List.range heap.size).all fun i =>
    heapOrderedAt heap i (2 * i + 1) && heapOrderedAt heap i (2 * i + 2)

/-- Insertion sequence refuting the claimed heap invariant. -/
def heapCounterSequence : List Heapable :=
  [⟨10, 0⟩, ⟨20, 0⟩, ⟨90, 0⟩, ⟨30, 0⟩, ⟨50, 0⟩, ⟨95, 0⟩, ⟨40, 0⟩]

/-- `MIN_RANGE_GAP = 4`. -/
def MIN_RANGE_GAP : Int := 4

/-- `addRange(from, to, ranges)` from the source: when the last `to` in
`ranges` is within `MIN_RANGE_GAP` of `from`, extend it to the new
`to`; otherwise append the pair.  On an empty array the JS guard reads
`undefined`, `undefined + 4 > from` is false, and the pair is
appended. -/
def addRange (f t : Int) (ranges : List Int) : List Int :=
  match ranges.getLast? with
  | some last =>
      if last + MIN_RANGE_GAP > f then ranges.dropLast ++ [t]
      else ranges ++ [f, t]
  | none => ranges ++ [f, t]

/-- Property of a flat `[from, to, from, to, ...]` array: each pair is
ordered and consecutive pairs are separated by at least
`MIN_RANGE_GAP`, hence the array is ascending and no two pairs are
closer than the merge threshold. -/
def rangePairsOrdered : List Int → Bool
  | [] => true
  | [_] => false
  | f :: t :: rest =>
      decide (f ≤ t) &&
      (match rest with
       | f2 :: _ => decide (t + MIN_RANGE_GAP ≤ f2)
       | [] => true) &&
      rangePairsOrdered rest

/-- Folding a sequence of `addRange` calls. -/
def foldRanges (calls : List (Int × Int)) : List Int :=
  calls.foldl (fun rs p => addRange p.1 p.2 rs) []

/-- Concrete call sequence for the C7 witness. -/
def addRangeDemoCalls : List (Int × Int) := [(0, 2), (3, 4), (10, 12)]

/-- `BASE_NODE_SIZE_SHIFT = 5`, `BASE_NODE_SIZE = 1 << 5 = 32`. -/
def BASE_NODE_SIZE_SHIFT : Nat := 5

/-- Leaf target capacity. -/
def BASE_NODE_SIZE : Int := 32

/-- JavaScript `x >> n` on (possibly negative) integers: arithmetic
shift, i.e. floor division by `2^n`. -/
def jsShr (x : Int) (n : Nat) : Int := Int.fdiv x ((2 : Int) ^ n)

/-- The decoration-set tree node: covered text `length`, total
decoration count `size`, node-local decorations (`local` in the source;
`local` is a Lean keyword, hence `locals`) and child subtrees. -/
inductive DecorationSet where
  | mk (length : Int) (size : Int) (locals : List Decoration)
      (children : List DecorationSet)

/-- Covered text length of a node. -/
def DecorationSet.length : DecorationSet → Int
  | .mk l _ _ _ => l

/-- Total decoration count of a subtree. -/
def DecorationSet.size : DecorationSet → Int
  | .mk _ s _ _ => s

/-- Node-local decorations. -/
def DecorationSet.locals : DecorationSet → List Decoration
  | .mk _ _ lo _ => lo

/-- Child subtrees, in position order. -/
def DecorationSet.children : DecorationSet → List DecorationSet
  | .mk _ _ _ c => c

/-- The empty sentinel set. -/
def DecorationSet.empty : DecorationSet := .mk 0 0 [] []

/-- `grow(length)`: same content, covered length extended. -/
def DecorationSet.grow (s : DecorationSet) (len : Int) : DecorationSet :=
  .mk (s.length + len) s.size s.locals s.children

mutual
/-- Structural equality of decoration sets (the model of the source's
reference-equality tests between tree nodes). -/
def DecorationSet.beq : DecorationSet → DecorationSet → Bool
  | .mk l1 s1 lo1 c1, .mk l2 s2 lo2 c2 =>
      l1 == l2 && s1 == s2 && lo1 == lo2 && DecorationSet.beqList c1 c2

/-- Structural equality on lists of decoration sets. -/
def DecorationSet.beqList : List DecorationSet → List DecorationSet → Bool
  | [], [] => true
  | x :: xs, y :: ys => DecorationSet.beq x y && DecorationSet.beqList xs ys
  | _, _ => false
end

mutual
/-- `collect(target, offset)`: append the node's decorations, offset
applied, then recurse into the children accumulating the offset. -/
def DecorationSet.collect : DecorationSet → List Decoration → Int → List Decoration
  | .mk _ _ lo c, target, offset =>
      DecorationSet.collectList c (target ++ lo.map (fun d => d.move offset)) offset

/-- The child loop of `collect`. -/
def DecorationSet.collectList : List DecorationSet → List Decoration → Int →
    List Decoration
  | [], target, _ => target
  | child :: rest, target, offset =>
      DecorationSet.collectList rest (child.collect target offset)
        (offset + child.length)
end

/-- `byPos(a, b) = a.from - b.from || a.desc.bias - b.desc.bias`. -/
def byPos (a b : Decoration) : Int :=
  if a.dFrom - b.dFrom ≠ 0 then a.dFrom - b.dFrom else a.desc.bias - b.desc.bias

/-- Helper for `insertSorted`, scanning the reversed list: walk left
past every element comparing `>= 0` against the new decoration. -/
def insertSortedRev (d : Decoration) : List Decoration → List Decoration
  | [] => [d]
  | x :: rest => if byPos x d ≥ 0 then x :: insertSortedRev d rest else d :: x :: rest

/-- `insertSorted(target, deco)`: splice the decoration before the
rightmost run of elements comparing `>= 0` against it. -/
def insertSorted (target : List Decoration) (d : Decoration) : List Decoration :=
  (insertSortedRev d target.reverse).reverse

/-- Stable insertion of one decoration into a `byPos`-sorted list
(equal keys go after existing ones, as a stable sort does). -/
def sortInsert (d : Decoration) : List Decoration → List Decoration
  | [] => [d]
  | x :: xs => if byPos d x < 0 then d :: x :: xs else x :: sortInsert d xs

/-- `array.sort(byPos)` (stable). -/
def sortByPos (l : List Decoration) : List Decoration :=
  l.foldl (fun acc d => sortInsert d acc) []

/-- Decoration filter predicate `(from, to, spec) => boolean`. -/
abbrev DecorationFilter := Int → Int → Int → Bool

/-- The loop of `filterDecorations`: `copy` is the written-on-demand
result array (`null` while no decoration has been dropped), `seen` the
prefix processed so far (for the `slice(0, i)` at the first drop). -/
def filterDecorationsGo (f : DecorationFilter) (filterFrom filterTo offset : Int) :
    List Decoration → Option (List Decoration) → List Decoration →
    Option (List Decoration)
  | [], copy, _ => copy
  | d :: rest, copy, seen =>
      let dfrom := d.dFrom + offset
      let dto := d.dTo + offset
      if filterFrom > dto ∨ filterTo < dfrom ∨ f dfrom dto d.spec then
        match copy with
        | some c =>
            filterDecorationsGo f filterFrom filterTo offset rest (some (c ++ [d]))
              (seen ++ [d])
        | none =>
            filterDecorationsGo f filterFrom filterTo offset rest none (seen ++ [d])
      else
        match copy with
        | some c =>
            filterDecorationsGo f filterFrom filterTo offset rest (some c)
              (seen ++ [d])
        | none =>
            filterDecorationsGo f filterFrom filterTo offset rest (some seen)
              (seen ++ [d])

/-- `filterDecorations(decorations, filter, filterFrom, filterTo,
offset)`: `none` when nothing changed (no filter, or every decoration
kept), otherwise the kept decorations. -/
def filterDecorations (decorations : List Decoration)
    (filter : Option DecorationFilter) (filterFrom filterTo offset : Int) :
    Option (List Decoration) :=
  match filter with
  | none => none
  | some f => filterDecorationsGo f filterFrom filterTo offset decorations none []

/-- `touchesChange(from, to, changes)`: a change intersects iff
`change.to >= from && change.from <= to`; after each non-intersecting
change, `from`/`to` are shifted by the change's length delta when they
lie past its `from`/`to`. -/
def touchesChange (f t : Int) : List Change → Bool
  | [] => false
  | c :: rest =>
      if c.cTo ≥ f ∧ c.cFrom ≤ t then true
      else
        let diff := c.insLen - (c.cTo - c.cFrom)
        let f2 := if f > c.cFrom then f + diff else f
        let t2 := if t > c.cTo then t + diff else t
        touchesChange f2 t2 rest

/-- The child-collection loop of `collapseSet`: each child is collected
with offset `-off`, `off` accumulating the child lengths (this is the
source's code, `-off` included). -/
def collapseCollect : List DecorationSet → List Decoration → Int → List Decoration
  | [], locals, _ => locals
  | child :: rest, locals, off =>
      collapseCollect rest (child.collect locals (-off)) (off + child.length)

/-- `collapseSet(children, local, add, start, offset, length)`: flatten
into a leaf.  As in the source, the `start` parameter is declared but
not used — the whole `add` array is appended. -/
def collapseSet (children : List DecorationSet) (locals : List Decoration)
    (add : List Decoration) (start : Int) (offset length : Int) : DecorationSet :=
  let mustSort := decide (locals.length > 0) && decide (add.length > 0)
  let collected := collapseCollect children locals 0
  let withAdd := collected ++ add.map (fun d => d.move (-offset))
  let finalLocals := if mustSort then sortByPos withAdd else withAdd
  let _ := start
  .mk length (finalLocals.length : Int) finalLocals []

/-- The inner `while` loop of `updateInner`'s child pass: consume every
decoration starting before `endPos`; a decoration ending past `endPos`
(straddling the child boundary) is spliced into the node-local array
(translated to local coordinates), the others are bucketed for the
child. -/
def consumeDecorations : List Decoration → Int → Int → Option (List Decoration) →
    List Decoration → Option (List Decoration) →
    Option (List Decoration) × Option (List Decoration) × List Decoration
  | [], _, _, local0, _, bucket => (local0, bucket, [])
  | d :: rest, endPos, offset, local0, thisLocals, bucket =>
      if d.dFrom ≥ endPos then (local0, bucket, d :: rest)
      else if d.dTo > endPos then
        consumeDecorations rest endPos offset
          (some (insertSorted (local0.getD thisLocals) (d.move (-offset))))
          thisLocals bucket
      else
        consumeDecorations rest endPos offset local0 thisLocals
          (some ((bucket.getD []) ++ [d]))

/-- The scan of the join branch of `rebalanceChildren`: how many
following children can be grouped while the cumulative size stays
within `childSize`; returns the count and the cumulative size and
length. -/
def joinScan : List DecorationSet → Int → Int → Int → Nat × Int × Int
  | [], size, length, _ => (0, size, length)
  | next :: rest, size, length, childSize =>
      if size + next.size > childSize then (0, size, length)
      else
        let r := joinScan rest (size + next.size) (length + next.length) childSize
        (r.1 + 1, r.2.1, r.2.2)

mutual
/-- `updateInner(decorations, filter, filterFrom, filterTo, offset,
length)`, fueled: filter the locals, distribute additions over the
children, early-exit when nothing changed, then either collapse into a
leaf (small node) or append trailing children and rebalance. -/
def updateInner : Nat → DecorationSet → List Decoration → Option DecorationFilter →
    Int → Int → Int → Int → Option DecorationSet
  | 0, _, _, _, _, _, _, _ => none
  | fuel + 1, s, decorations, filter, filterFrom, filterTo, offset, length =>
      let local0 := filterDecorations s.locals filter filterFrom filterTo offset
      match updateChildren fuel s.children [] decorations filter filterFrom filterTo
          offset offset local0 s.locals none 0 with
      | none => none
      | some (local1, childrenAcc, sizeC, remaining, pos) =>
          -- if nothing was actually updated, return the existing object
          if local1.isNone && childrenAcc.isNone && remaining.isEmpty then some s
          else
            let size := sizeC + ((local1.getD s.locals).length : Int) +
              (remaining.length : Int)
            if size ≤ BASE_NODE_SIZE then
              some (collapseSet (childrenAcc.getD s.children) (local1.getD s.locals)
                decorations ((decorations.length - remaining.length : Nat) : Int)
                offset length)
            else
              let childSize := max BASE_NODE_SIZE (jsShr size BASE_NODE_SIZE_SHIFT)
              if remaining.isEmpty then
                match childrenAcc with
                | none =>
                    some (.mk length size (local1.getD s.locals) s.children)
                | some cs =>
                    match rebalanceLoop fuel 0 0 (local1.getD s.locals) cs childSize with
                    | none => none
                    | some (lo2, cs2) => some (.mk length size lo2 cs2)
              else
                match appendDecorations fuel (local1.getD s.locals)
                    (childrenAcc.getD s.children) remaining offset length pos
                    childSize with
                | none => none
                | some (lo2, cs2) =>
                    match rebalanceLoop fuel 0 0 lo2 cs2 childSize with
                    | none => none
                    | some (lo3, cs3) => some (.mk length size lo3 cs3)

/-- The child loop of `updateInner` (source lines iterating
`this.children`): `done` is the prefix of original children already
passed (for the `slice(0, i)` on first divergence), `childrenAcc` the
written-on-demand new child array, `local0` the written-on-demand new
local array.  Returns the final local array, child array, accumulated
child size, unconsumed decorations and end position. -/
def updateChildren : Nat → List DecorationSet → List DecorationSet →
    List Decoration → Option DecorationFilter → Int → Int → Int → Int →
    Option (List Decoration) → List Decoration → Option (List DecorationSet) →
    Int →
    Option (Option (List Decoration) × Option (List DecorationSet) × Int ×
      List Decoration × Int)
  | 0, _, _, _, _, _, _, _, _, _, _, _, _ => none
  | _ + 1, [], _, decorations, _, _, _, _, pos, local0, _, childrenAcc, size =>
      some (local0, childrenAcc, size, decorations, pos)
  | fuel + 1, child :: rest, done, decorations, filter, filterFrom, filterTo,
      offset, pos, local0, thisLocals, childrenAcc, size =>
      let endPos := pos + child.length
      match consumeDecorations decorations endPos offset local0 thisLocals none with
      | (local1, bucket, remaining) =>
          let doUpdate := bucket.isSome ||
            (filter.isSome && decide (filterFrom ≤ endPos) && decide (filterTo ≥ pos))
          match (if doUpdate then
              updateInner fuel child (bucket.getD []) filter filterFrom filterTo pos
                child.length
            else some child) with
          | none => none
          | some newChild =>
              let childrenAcc2 :=
                if DecorationSet.beq newChild child then
                  match childrenAcc with
                  | some cs => some (cs ++ [newChild])
                  | none => none
                else some ((childrenAcc.getD done) ++ [newChild])
              updateChildren fuel rest (done ++ [child]) remaining filter filterFrom
                filterTo offset endPos local1 thisLocals childrenAcc2
                (size + newChild.size)

/-- `appendDecorations(local, children, decorations, start, offset,
length, pos, childSize)`: group the remaining additions into new
trailing children of about `childSize` decorations, bubbling into
`local` any decoration ending past its group boundary. -/
def appendDecorations : Nat → List Decoration → List DecorationSet →
    List Decoration → Int → Int → Int → Int →
    Option (List Decoration × List DecorationSet)
  | 0, _, _, _, _, _, _, _ => none
  | fuel + 1, locals, children, decorations, offset, length, pos, childSize =>
      match decorations with
      | [] => some (locals, children)
      | _ :: _ =>
          let n := min childSize.toNat decorations.length
          let group := decorations.take n
          let rest := decorations.drop n
          let endPos := match rest with
            | [] => offset + length
            | next :: _ => next.dFrom
          let dist := group.foldl
            (fun (p : List Decoration × List Decoration) deco =>
              if deco.dTo > endPos then (insertSorted p.1 (deco.move (-offset)), p.2)
              else (p.1, p.2 ++ [deco]))
            (locals, [])
          if dist.2.isEmpty then
            appendDecorations fuel dist.1 children rest offset length pos childSize
          else
            match updateInner fuel DecorationSet.empty dist.2 none 0 0 pos
                (endPos - pos) with
            | none => none
            | some newChild =>
                appendDecorations fuel dist.1 (children ++ [newChild]) rest offset
                  length endPos childSize

/-- The loop of `rebalanceChildren`, iterated on the (signed) index `i`
with running offset `off`.  A negative index (reachable by dropping the
sole child) makes the next iteration read `children[-1]`, which faults
(`none`). -/
def rebalanceLoop : Nat → Int → Int → List Decoration → List DecorationSet →
    Int → Option (List Decoration × List DecorationSet)
  | 0, _, _, _, _, _ => none
  | fuel + 1, i, off, locals, children, childSize =>
      if i ≥ (children.length : Int) then some (locals, children)
      else if i < 0 then none
      else
        let idx := i.toNat
        let child := children.getD idx DecorationSet.empty
        if child.size = 0 ∧ (i > 0 ∨ children.length = 1) then
          -- drop empty node: children.splice(i--, 1); grow the previous
          let children2 := children.eraseIdx idx
          let i2 := i - 1
          let children3 :=
            if i2 ≥ 0 then
              children2.set i2.toNat
                ((children2.getD i2.toNat DecorationSet.empty).grow child.length)
            else children2
          rebalanceLoop fuel i2 off locals children3 childSize
        else if child.size > childSize * 2 ∧
            (child.locals.length : Int) < Int.fdiv child.length 2 then
          -- unwrap an overly big node
          let locals2 := child.locals.foldl (fun acc d => insertSorted acc (d.move off))
            locals
          let children2 := children.take idx ++ child.children ++
            children.drop (idx + 1)
          rebalanceLoop fuel i off locals2 children2 childSize
        else if child.children.isEmpty ∧ i < (children.length : Int) - 1 ∧
            (children.getD (idx + 1) DecorationSet.empty).size + child.size ≤
              BASE_NODE_SIZE ∧
            (children.getD (idx + 1) DecorationSet.empty).children.isEmpty then
          -- join two small leaf nodes
          let next := children.getD (idx + 1) DecorationSet.empty
          let merged := DecorationSet.mk (child.length + next.length)
            (child.size + next.size)
            (child.locals ++ next.locals.map (fun d => d.move child.length)) []
          let children2 := children.take idx ++ [merged] ++ children.drop (idx + 2)
          rebalanceLoop fuel i (off + child.length + next.length) locals children2
            childSize
        else
          -- join a number of nodes into a wrapper node
          let small := decide (child.size < Int.fdiv childSize 2)
          let scan := joinScan (children.drop (idx + 1)) child.size child.length
            childSize
          let joinTo := if small then i + 1 + (scan.1 : Int) else i + 1
          let size := if small then scan.2.1 else child.size
          let length := if small then scan.2.2 else child.length
          if joinTo > i + 1 then
            let joined0 := DecorationSet.mk length size []
              ((children.drop idx).take (joinTo - i).toNat)
            let part := locals.partition
              (fun d => decide (d.dFrom ≥ off) && decide (d.dTo ≤ off + length))
            let joinedLocals := part.1.map (fun d => d.move (-off))
            let locals2 := part.2
            match (if joinedLocals.isEmpty then some joined0
                else updateFueled fuel joined0 (sortByPos joinedLocals) none 0
                  joined0.length) with
            | none => none
            | some joined =>
                let children2 := children.take idx ++ [joined] ++
                  children.drop joinTo.toNat
                rebalanceLoop fuel joinTo (off + length) locals2 children2 childSize
          else
            rebalanceLoop fuel (i + 1) (off + child.length) locals children childSize

/-- `update(decorations, filter, filterFrom, filterTo)`: compute the new
covered length, sort the additions once by `(from, bias)` and run
`updateInner` from position `0`. -/
def updateFueled : Nat → DecorationSet → List Decoration →
    Option DecorationFilter → Int → Int → Option DecorationSet
  | 0, _, _, _, _, _ => none
  | fuel + 1, s, decorations, filter, filterFrom, filterTo =>
      let maxLen := decorations.foldl (fun l d => max l d.dTo) s.length
      let sorted := if decorations.isEmpty then decorations
        else sortByPos decorations
      updateInner fuel s sorted filter filterFrom filterTo 0 maxLen
end

/-- `rebalanceChildren(local, children, childSize)`. -/
def rebalanceChildren (fuel : Nat) (locals : List Decoration)
    (children : List DecorationSet) (childSize : Int) :
    Option (List Decoration × List DecorationSet) :=
  rebalanceLoop fuel 0 0 locals children childSize

/-- `set.update(decorations, filter, filterFrom = 0, filterTo =
this.length)` with the source's default arguments. -/
def DecorationSet.update (fuel : Nat) (s : DecorationSet)
    (decorations : List Decoration := [])
    (filter : Option DecorationFilter := none)
    (filterFrom : Int := 0) (filterTo : Int := s.length) : Option DecorationSet :=
  updateFueled fuel s decorations filter filterFrom filterTo

/-- `DecorationSet.of(decorations)`: update the empty set. -/
def DecorationSet.of (fuel : Nat) (decorations : List Decoration) :
    Option DecorationSet :=
  match decorations with
  | [] => some DecorationSet.empty
  | _ :: _ =>
      DecorationSet.empty.update fuel decorations none 0 DecorationSet.empty.length

/-- Sum of the `size` fields of a list of children. -/
def sumSizes : List DecorationSet → Int
  | [] => 0
  | c :: rest => c.size + sumSizes rest

/-- Sum of the `length` fields of a list of children. -/
def sumLengths : List DecorationSet → Int
  | [] => 0
  | c :: rest => c.length + sumLengths rest

/-- Sortedness of a local array under `byPos`. -/
def localsSorted : List Decoration → Bool
  | [] => true
  | [_] => true
  | a :: b :: rest => decide (byPos a b ≤ 0) && localsSorted (b :: rest)

mutual
/-- The C1 tree invariant, decidably: at every node, `size` equals the
local count plus the children sizes, the children lengths sum to at
most `length`, the locals are sorted by `(from, bias)`, and every local
decoration satisfies `0 <= from <= to <= length`. -/
def wfInvariant : DecorationSet → Bool
  | .mk len size lo cs =>
      (size == (lo.length : Int) + sumSizes cs) &&
      decide (sumLengths cs ≤ len) &&
      localsSorted lo &&
      lo.all (fun d =>
        decide (0 ≤ d.dFrom) && decide (d.dFrom ≤ d.dTo) && decide (d.dTo ≤ len)) &&
      wfInvariantList cs

/-- `wfInvariant` on every node of a child list. -/
def wfInvariantList : List DecorationSet → Bool
  | [] => true
  | c :: rest => wfInvariant c && wfInvariantList rest
end

/-- 33 valid range decorations `range(i, i+1)`, the smallest batch that
makes `DecorationSet.of` build a two-child tree. -/
def c1Decorations : List Decoration :=
  (List.range 33).map (fun i =>
    (Decoration.range (i : Int) ((i : Int) + 1) false false 0).getD
      (Decoration.point 0 0 0))

/-- Filter keeping exactly the decoration starting at 32 (the one in the
second child). -/
def keepOnly32 : DecorationFilter := fun f _ _ => f == 32

/-- Filter keeping the decorations starting at 31 and 32. -/
def keep31or32 : DecorationFilter := fun f _ _ => f == 31 || f == 32

mutual
/-- Fuel sufficient for the no-change traversal of `updateInner` on a
set. -/
def updFuel : DecorationSet → Nat
  | .mk _ _ _ cs => 1 + updFuelList cs

/-- Fuel sufficient for the no-change traversal of `updateChildren`
over a child list. -/
def updFuelList : List DecorationSet → Nat
  | [] => 1
  | c :: rest => 1 + max (updFuel c) (updFuelList rest)
end

/-- Concrete two-level set for the C6 witness. -/
def noopDemoSet : DecorationSet :=
  .mk 10 2 []
    [.mk 4 1 [⟨0, 1, .rangeDesc false false 0⟩] [],
     .mk 6 1 [⟨2, 3, .rangeDesc false false 0⟩] []]

/-- A size-0 first child with a non-leaf sibling. -/
def emptyChildDemo : DecorationSet := .mk 5 0 [] []

/-- A sibling that is neither empty nor a leaf (blocking the merge
rule). -/
def nonLeafSibling : DecorationSet :=
  .mk 10 2 [] [.mk 4 1 [⟨0, 1, .rangeDesc false false 0⟩] [],
               .mk 6 1 [⟨0, 2, .rangeDesc false false 0⟩] []]

/-- Accumulator of `mapInner`'s child loop: the written-on-demand new
child array and local array, the escapee list, and the accumulated
size. -/
structure MapChildState where
  newChildren : Option (List DecorationSet)
  newLocal : Option (List Decoration)
  escaped : Option (List Decoration)
  newSize : Int

/-- Handling of one escapee coming out of a recursed child (source:
`deco = deco.move(newPos - newStart)`, then either pass it further up
or insert it into this node's new local array). -/
def mapEscapeStep (thisLocals : List Decoration) (newStart newLength newPos : Int)
    (acc : MapChildState) (deco : Decoration) : MapChildState :=
  let deco := deco.move (newPos - newStart)
  if deco.dFrom < 0 ∨ deco.dTo > newLength then
    ⟨acc.newChildren, acc.newLocal, some ((acc.escaped.getD []) ++ [deco]),
      acc.newSize⟩
  else
    ⟨acc.newChildren, some (insertSorted (acc.newLocal.getD thisLocals) deco),
      acc.escaped, acc.newSize⟩

/-- The local-decoration loop of `mapInner` (source: remap each local,
collecting escapees whose mapped position falls outside
`[0, newLength)`).  `done` is the prefix processed so far, for the
`slice(0, i)` allocated at the first divergence; a freshly mapped
decoration structurally equal to the old one counts as unchanged (the
source compares references). -/
def mapLocals (changes : List Change) (oldStart newStart newLength : Int) :
    List Decoration → List Decoration → Option (List Decoration) →
    Option (List Decoration) →
    Option (List Decoration) × Option (List Decoration)
  | [], _, newLocal, escaped => (newLocal, escaped)
  | deco :: rest, done, newLocal, escaped =>
      let mapped := deco.map changes oldStart newStart
      let escape := match mapped with
        | some m => decide (m.dFrom < 0 ∨ m.dTo > newLength)
        | none => false
      let newLocal1 := if newLocal.isNone ∧ (¬ mapped = some deco ∨ escaped.isSome)
        then some done else newLocal
      match mapped, escape with
      | some m, true =>
          mapLocals changes oldStart newStart newLength rest (done ++ [deco])
            newLocal1 (some ((escaped.getD []) ++ [m]))
      | some m, false =>
          mapLocals changes oldStart newStart newLength rest (done ++ [deco])
            (newLocal1.map (fun nl => nl ++ [m])) escaped
      | none, _ =>
          mapLocals changes oldStart newStart newLength rest (done ++ [deco])
            newLocal1 escaped

/-- The new-children bookkeeping for one child of `mapInner`'s loop
(source lines `if (newChild != child) {...} else if (newChildren) ...`):
allocate the new child array on first divergence as `slice(0, i)`
(`done`); a recursed child of size 0 is dropped, its length merged into
the previous new child when one exists. -/
def childrenBookkeeping (newChild child : DecorationSet) (st1 : MapChildState)
    (done : List DecorationSet) (total : Nat) : MapChildState :=
  if ¬ DecorationSet.beq newChild child then
    let acc0 := st1.newChildren.getD done
    if newChild.size = 0 ∧
        (newChild.length = 0 ∨ ¬ acc0.isEmpty ∨ done.length = total) then
      let acc1 := if newChild.length > 0 ∧ done.length > 0 then
          match acc0.getLast? with
          | some lastChild => acc0.dropLast ++
              [DecorationSet.mk (lastChild.length + newChild.length)
                lastChild.size lastChild.locals lastChild.children]
          | none => acc0
        else acc0
      ⟨some acc1, st1.newLocal, st1.escaped, st1.newSize⟩
    else ⟨some (acc0 ++ [newChild]), st1.newLocal, st1.escaped, st1.newSize⟩
  else
    match st1.newChildren with
    | some cs => ⟨some (cs ++ [newChild]), st1.newLocal, st1.escaped, st1.newSize⟩
    | none => st1

mutual
/-- `mapInner(changes, oldStart, newStart, newEnd)`: remap the locals,
then walk the children, recursing only into subtrees touched by a
change; untouched children are reused (length-adjusted when the mapped
end differs); recursed children of size 0 are dropped, their length
merged into the previous new child; escapees that still fall outside
this node's new extent are passed further up.  Returns the new set and
the escapee list. -/
def mapInner : DecorationSet → List Change → Int → Int → Int →
    DecorationSet × Option (List Decoration)
  | .mk len sz lo cs, changes, oldStart, newStart, newEnd =>
      let newLength := newEnd - newStart
      let r0 := mapLocals changes oldStart newStart newLength lo [] none none
      let st := mapChildren changes lo newStart newLength cs.length
        cs [] oldStart newStart ⟨none, r0.1, r0.2, 0⟩
      let set := if newLength = len ∧ st.newChildren.isNone ∧ st.newLocal.isNone
        then DecorationSet.mk len sz lo cs
        else DecorationSet.mk newLength
          (st.newSize + ((st.newLocal.getD lo).length : Int))
          (st.newLocal.getD lo) (st.newChildren.getD cs)
      (set, st.escaped)

/-- The child loop of `mapInner`.  `done` is the prefix of the original
children already passed (for the `slice(0, i)` on divergence), `total`
the original child count (for the source's `i == this.children.length`
test inside the loop). -/
def mapChildren (changes : List Change) (thisLocals : List Decoration)
    (newStart newLength : Int) (total : Nat) :
    List DecorationSet → List DecorationSet → Int → Int → MapChildState →
    MapChildState
  | [], _, _, _, st => st
  | child :: rest, done, oldPos, newPos, st =>
      let oldChildEnd := oldPos + child.length
      let newChildEnd := mapPos (oldPos + child.length) changes 1
      let step : DecorationSet × Option (List Decoration) :=
        if touchesChange oldPos oldChildEnd changes then
          mapInner child changes oldPos newPos newChildEnd
        else if ¬ (newChildEnd - newPos = oldChildEnd - oldPos) then
          (DecorationSet.mk (newChildEnd - newPos) child.size child.locals
            child.children, none)
        else (child, none)
      let st1 := (step.2.getD []).foldl
        (mapEscapeStep thisLocals newStart newLength newPos) st
      let st2 := childrenBookkeeping step.1 child st1 done total
      mapChildren changes thisLocals newStart newLength total rest (done ++ [child])
        oldChildEnd newChildEnd
        ⟨st2.newChildren, st2.newLocal, st2.escaped, st2.newSize + step.1.size⟩
end

/-- One iteration of `mapInner`'s child loop, as a standalone function
(identical to the step inlined in `mapChildren`): remap or reuse the
child depending on `touchesChange`, fold its escapees into the state,
run the new-children bookkeeping and add the new child's size. -/
def mapStepState (changes : List Change) (thisLocals : List Decoration)
    (newStart newLength : Int) (total : Nat) (child : DecorationSet)
    (done : List DecorationSet) (oldPos newPos : Int) (st : MapChildState) :
    MapChildState :=
  let oldChildEnd := oldPos + child.length
  let newChildEnd := mapPos (oldPos + child.length) changes 1
  let step : DecorationSet × Option (List Decoration) :=
    if touchesChange oldPos oldChildEnd changes then
      mapInner child changes oldPos newPos newChildEnd
    else if ¬ (newChildEnd - newPos = oldChildEnd - oldPos) then
      (DecorationSet.mk (newChildEnd - newPos) child.size child.locals
        child.children, none)
    else (child, none)
  let st1 := (step.2.getD []).foldl
    (mapEscapeStep thisLocals newStart newLength newPos) st
  let st2 := childrenBookkeeping step.1 child st1 done total
  ⟨st2.newChildren, st2.newLocal, st2.escaped, st2.newSize + step.1.size⟩

/-- `set.map(changes)`: nothing to do on an empty change list or the
empty sentinel; otherwise run `mapInner` from position 0 with the new
end `mapPos(this.length, changes, 1)`, discarding root escapees. -/
def DecorationSet.map (s : DecorationSet) (changes : List Change) :
    DecorationSet :=
  if changes.isEmpty || DecorationSet.beq s DecorationSet.empty then s
  else (mapInner s changes 0 0 (mapPos s.length changes 1)).1

/-- The state-invariant of the C9 proof: either no new-children array
has been allocated yet and the subtree `c` is among the already-passed
original children, or the allocated array contains a node with exactly
`c`'s local decorations, children and size. -/
def containsLike (c : DecorationSet) (st : MapChildState)
    (done : List DecorationSet) : Prop :=
  (st.newChildren = none ∧ c ∈ done) ∨
  (∃ l, st.newChildren = some l ∧ ∃ x ∈ l,
    x.locals = c.locals ∧ x.children = c.children ∧ x.size = c.size)

/-- Concrete two-child set for the C9 witness. -/
def mapDemoSet : DecorationSet :=
  .mk 10 2 []
    [.mk 4 1 [⟨0, 1, .rangeDesc false false 0⟩] [],
     .mk 6 1 [⟨0, 2, .rangeDesc false false 0⟩] []]

/-- A text-diff tuple `(fromA, toA, fromB, toB)` as consumed by
`changedRanges`. -/
structure ChangedRange where
  fromA : Int
  toA : Int
  fromB : Int
  toB : Int

/-- The driver loop of `changedRanges`, instrumented to record, in
order, the `DecorationSetComparison(this, oldPos, other, newPos, endB,
changes)` invocations it performs: one per text-diff gap whose guard
`range.fromB > newPos && (this != other || oldPos != newPos)` passes,
plus the final one when `oldPos < this.length || newPos <
other.length`, ending at `max(this.length - oldPos + newPos,
other.length)`.  (The comparison engine itself — how each invocation
contributes to the `content`/`height` arrays — is not modelled here.) -/
def changedRangesComparisonsGo (a b : DecorationSet) :
    List ChangedRange → Int → Int → List (Int × Int × Int)
  | [], oldPos, newPos =>
      if oldPos < a.length ∨ newPos < b.length then
        [(oldPos, newPos, max (a.length - oldPos + newPos) b.length)]
      else []
  | r :: rest, oldPos, newPos =>
      (if r.fromB > newPos ∧ (¬ DecorationSet.beq a b ∨ oldPos ≠ newPos) then
        [(oldPos, newPos, r.fromB)]
      else []) ++ changedRangesComparisonsGo a b rest r.toA r.toB

/-- The comparison invocations of `a.changedRanges(b, textDiff)`. -/
def changedRangesComparisons (a b : DecorationSet)
    (textDiff : List ChangedRange) : List (Int × Int × Int) :=
  changedRangesComparisonsGo a b textDiff 0 0

/-- The `(oldPos, newPos)` pair left after consuming a text diff,
starting from a given pair. -/
def diffEndPositionsFrom (textDiff : List ChangedRange) (init : Int × Int) :
    Int × Int :=
  textDiff.foldl (fun _ r => (r.toA, r.toB)) init

/-- The `(oldPos, newPos)` pair left after consuming the text diff from
`(0, 0)`. -/
def diffEndPositions (textDiff : List ChangedRange) : Int × Int :=
  diffEndPositionsFrom textDiff (0, 0)

/-- A well-formed single-change mapping keeps non-negative positions
non-negative. -/
theorem Change.mapPos_nonneg (c : Change) (pos assoc : Int)
    (hc : c.wellFormed) (hpos : 0 ≤ pos) : 0 ≤ c.mapPos pos assoc := by
  obtain ⟨h1, h2, h3⟩ := hc
  unfold Change.mapPos
  split_ifs <;> omega

/-- Unfolding lemma for tracked `mapPos` when the position is not
strictly inside the head change. -/
theorem mapPos_cons_outside (c : Change) (rest : List Change) (pos assoc : Int)
    (h : ¬ (c.cFrom < pos ∧ c.cTo > pos)) :
    mapPos pos (c :: rest) assoc true = mapPos (c.mapPos pos assoc) rest assoc true := by
  conv_lhs => unfold mapPos
  rw [if_neg]
  simpa using h

/-- Tracked `mapPos` agrees with the reference tracked mapping on
non-negative positions and well-formed changes: `none` corresponds to
the sentinel `-1`, and a successful result is the mapped (non-negative)
position. -/
theorem mapPos_track_spec (changes : List Change) (pos assoc : Int)
    (hw : ∀ c ∈ changes, c.wellFormed) (hpos : 0 ≤ pos) :
    (refTrackPos pos changes assoc = none → mapPos pos changes assoc true = -1) ∧
    (∀ q, refTrackPos pos changes assoc = some q →
      mapPos pos changes assoc true = q ∧ 0 ≤ q) := by
  induction changes generalizing pos with
  | nil =>
      refine ⟨fun h => by simp [refTrackPos] at h, fun q hq => ?_⟩
      simp [refTrackPos] at hq
      subst hq
      exact ⟨by simp [mapPos], hpos⟩
  | cons c rest ih =>
      have hc : c.wellFormed := hw c (by simp)
      have hrest : ∀ x ∈ rest, x.wellFormed := fun x hx => hw x (by simp [hx])
      by_cases hin : c.cFrom < pos ∧ c.cTo > pos
      · refine ⟨fun _ => ?_, fun q hq => ?_⟩
        · unfold mapPos
          rw [if_pos]
          simpa using hin
        · simp [refTrackPos, hin] at hq
      · have hmap : 0 ≤ c.mapPos pos assoc := c.mapPos_nonneg pos assoc hc hpos
        have ihm := ih (c.mapPos pos assoc) hrest hmap
        rw [mapPos_cons_outside c rest pos assoc hin]
        refine ⟨fun h => ?_, fun q hq => ?_⟩
        · simp only [refTrackPos, if_neg hin] at h
          exact ihm.1 h
        · simp only [refTrackPos, if_neg hin] at hq
          exact ihm.2 q hq

/-- C3: `Decoration.map(changes, oldOffset, newOffset)` equals the
reference definition dispatched on the descriptor variant: a range maps
its endpoints with the start and end biases and is dropped when it
collapses (`from' >= to'`); a point maps its position through the
changes in order with tracking, dropped exactly when the position
reached before some change lies strictly inside that change's deleted
region.  Stated for well-formed changes and a non-negative absolute
start position (malformed inputs are undefined behaviour). -/
theorem decorationMapMatchesReference (d : Decoration) (changes : List Change)
    (oldOffset newOffset : Int)
    (hw : ∀ c ∈ changes, c.wellFormed)
    (hpos : 0 ≤ d.dFrom + oldOffset) :
    d.map changes oldOffset newOffset = refDecorationMap d changes oldOffset newOffset := by
  obtain ⟨f, t, desc⟩ := d
  cases desc with
  | rangeDesc a b p => rfl
  | pointDesc s p =>
      have h := mapPos_track_spec changes (f + oldOffset) s hw hpos
      simp only [Decoration.map, refDecorationMap, DecorationDesc.bias] at *
      cases hr : refTrackPos (f + oldOffset) changes s with
      | none =>
          have := h.1 hr
          simp [this]
      | some q =>
          obtain ⟨h1, h2⟩ := h.2 q hr
          have : ¬ ((q : Int) = -1) := by omega
          simp [h1, this]

/-- Witness for C3 at a concrete input: a point decoration mapped
through a concrete well-formed change list. -/
theorem decorationMapMatchesReferenceInstance :
    (Decoration.point 4 0 7).map [⟨0, 0, 1⟩, ⟨2, 3, 0⟩] 0 0 =
      refDecorationMap (Decoration.point 4 0 7) [⟨0, 0, 1⟩, ⟨2, 3, 0⟩] 0 0 :=
  decorationMapMatchesReference (Decoration.point 4 0 7) [⟨0, 0, 1⟩, ⟨2, 3, 0⟩] 0 0
    (by decide) (by decide)

/-- C5: `Decoration.range(from, to, spec)` fails (throws `InvalidRange`,
modelled as `none`) exactly when `from >= to`, and otherwise returns a
decoration with exactly the given endpoints; `Decoration.point(pos,
spec)` never fails and returns a decoration with `from == to == pos`. -/
theorem rangeFailsIffEmptyAndPointTotal (f t : Int) (a b : Bool) (p : Int)
    (pos side payload : Int) :
    (Decoration.range f t a b p = none ↔ t ≤ f) ∧
    ((Decoration.range f t a b p).map Decoration.dFrom =
      if t ≤ f then none else some f) ∧
    ((Decoration.range f t a b p).map Decoration.dTo =
      if t ≤ f then none else some t) ∧
    (Decoration.point pos side payload).dFrom = pos ∧
    (Decoration.point pos side payload).dTo = pos := by
  unfold Decoration.range Decoration.point
  by_cases h : f ≥ t
  · simp [h, show t ≤ f from h]
  · have : ¬ t ≤ f := by omega
    simp [h, this]

/-- C4 (refutation): inserting `10, 20, 90, 30, 50, 95, 40` into an
initially empty heap with `addToHeap` produces the array
`[10, 20, 50, 30, 90, 95, 40]`, which violates the binary-heap
property: the element `50` at index `2` compares greater than its child
`40` at index `6 = 2*2+2`.  The sift-up loop computes the parent of
index `i` as `i >> 1`, while `takeFromHeap` places the children of `i`
at `2*i+1` and `2*i+2` (whose parent is `(i-1) >> 1`). -/
theorem addToHeapViolatesHeapProperty :
    heapCounterSequence.foldl addToHeap #[] =
      #[⟨10, 0⟩, ⟨20, 0⟩, ⟨50, 0⟩, ⟨30, 0⟩, ⟨90, 0⟩, ⟨95, 0⟩, ⟨40, 0⟩] ∧
    heapProperty (heapCounterSequence.foldl addToHeap #[]) = false ∧
    compareHeapable ((heapCounterSequence.foldl addToHeap #[]).getD 2 hDummy)
      ((heapCounterSequence.foldl addToHeap #[]).getD 6 hDummy) > 0 := by
  refine ⟨by decide, by decide, by decide⟩

/-- One-step unfolding of `rangePairsOrdered` on a pair head. -/
theorem rangePairsOrdered_cons_cons (f t : Int) (rest : List Int) :
    rangePairsOrdered (f :: t :: rest) =
      (decide (f ≤ t) &&
        (match rest with
         | f2 :: _ => decide (t + MIN_RANGE_GAP ≤ f2)
         | [] => true) &&
        rangePairsOrdered rest) := rfl

/-- Appending a flat pair to a well-separated flat pair list keeps it
well formed when the new pair starts at least `MIN_RANGE_GAP` past the
previous end. -/
theorem rangePairsOrdered_append_pair (rs : List Int) (L f t : Int)
    (hord : rangePairsOrdered rs = true) (hlast : rs.getLast? = some L)
    (hgap : L + MIN_RANGE_GAP ≤ f) (hft : f ≤ t) :
    rangePairsOrdered (rs ++ [f, t]) = true := by
  induction rs using rangePairsOrdered.induct generalizing L with
  | case1 => simp at hlast
  | case2 x => simp [rangePairsOrdered] at hord
  | case3 a b rest ih =>
      match rest, hlast, ih with
      | [], hlast, _ =>
          simp at hlast
          subst hlast
          simp only [List.cons_append, List.nil_append, List.append_eq,
            rangePairsOrdered, Bool.and_eq_true, decide_eq_true_eq, and_true]
            at hord ⊢
          omega
      | [c], hlast, _ =>
          simp [rangePairsOrdered] at hord
      | c :: d :: rest3, hlast, ih =>
          rw [List.getLast?_cons_cons] at hlast
          rw [rangePairsOrdered_cons_cons, Bool.and_eq_true, Bool.and_eq_true]
            at hord
          obtain ⟨⟨hab, hbc⟩, hrec⟩ := hord
          have hrech := ih L hrec hlast hgap
          show rangePairsOrdered (a :: b :: ((c :: d :: rest3) ++ [f, t])) = true
          rw [rangePairsOrdered_cons_cons, Bool.and_eq_true, Bool.and_eq_true]
          exact ⟨⟨hab, hbc⟩, hrech⟩

/-- Replacing the final end position of a well-separated flat pair list
by a larger-or-equal value keeps it well formed. -/
theorem rangePairsOrdered_replace_last (rs : List Int) (L t : Int)
    (hord : rangePairsOrdered rs = true) (hlast : rs.getLast? = some L)
    (hle : L ≤ t) :
    rangePairsOrdered (rs.dropLast ++ [t]) = true := by
  induction rs using rangePairsOrdered.induct generalizing L with
  | case1 => simp at hlast
  | case2 x => simp [rangePairsOrdered] at hord
  | case3 a b rest ih =>
      match rest, hlast, ih with
      | [], hlast, _ =>
          simp at hlast
          subst hlast
          simp only [rangePairsOrdered, Bool.and_eq_true, decide_eq_true_eq,
            and_true] at hord
          simp only [List.dropLast, List.cons_append, List.nil_append,
            List.append_eq, rangePairsOrdered, Bool.and_eq_true,
            decide_eq_true_eq, and_true]
          omega
      | [c], hlast, _ =>
          simp [rangePairsOrdered] at hord
      | c :: d :: rest3, hlast, ih =>
          rw [List.getLast?_cons_cons] at hlast
          rw [rangePairsOrdered_cons_cons, Bool.and_eq_true, Bool.and_eq_true]
            at hord
          obtain ⟨⟨hab, hbc⟩, hrec⟩ := hord
          have hrech := ih L hrec hlast hle
          show rangePairsOrdered
            (a :: b :: ((c :: d :: rest3).dropLast ++ [t])) = true
          rw [rangePairsOrdered_cons_cons, Bool.and_eq_true, Bool.and_eq_true]
          exact ⟨⟨hab, hbc⟩, hrech⟩

/-- The last element of a flat list after appending a pair. -/
theorem getLast?_append_pair (l : List Int) (f t : Int) :
    (l ++ [f, t]).getLast? = some t := by
  have : l ++ [f, t] = (l ++ [f]) ++ [t] := by simp
  rw [this, List.getLast?_concat]

/-- Invariant of folding `addRange` calls: an ordered well-separated
accumulator whose last end is below every upcoming call's end stays
ordered, and the parity of its length is preserved modulo 2 per merge
(unchanged) or append (+2). -/
theorem foldRanges_inv (calls : List (Int × Int)) (rs : List Int)
    (hord : rangePairsOrdered rs = true)
    (hft : ∀ p ∈ calls, p.1 ≤ p.2)
    (hmono : List.Chain' (fun p q : Int × Int => p.2 ≤ q.2) calls)
    (hlink : ∀ L, rs.getLast? = some L → ∀ p, calls.head? = some p → L ≤ p.2) :
    rangePairsOrdered (calls.foldl (fun rs p => addRange p.1 p.2 rs) rs) = true ∧
    (calls.foldl (fun rs p => addRange p.1 p.2 rs) rs).length % 2 = rs.length % 2 := by
  induction calls generalizing rs with
  | nil => exact ⟨hord, rfl⟩
  | cons p rest ih =>
      have hp : p.1 ≤ p.2 := hft p (by simp)
      have hrest : ∀ q ∈ rest, q.1 ≤ q.2 := fun q hq => hft q (by simp [hq])
      have hmono2 : List.Chain' (fun p q : Int × Int => p.2 ≤ q.2) rest :=
        hmono.tail
      -- facts about the one-step result
      have hstep : rangePairsOrdered (addRange p.1 p.2 rs) = true ∧
          (addRange p.1 p.2 rs).getLast? = some p.2 ∧
          (addRange p.1 p.2 rs).length % 2 = rs.length % 2 := by
        unfold addRange
        cases hL : rs.getLast? with
        | none =>
            have : rs = [] := List.getLast?_eq_none_iff.mp hL
            subst this
            refine ⟨?_, by simp, by simp⟩
            simp [rangePairsOrdered, hp]
        | some L =>
            have hrs : rs ≠ [] := by
              intro h; subst h; simp at hL
            have hLe : L ≤ p.2 := hlink L hL p (by simp)
            by_cases hmerge : L + MIN_RANGE_GAP > p.1
            · refine ⟨?_, ?_, ?_⟩
              · simp only [if_pos hmerge]
                exact rangePairsOrdered_replace_last rs L p.2 hord hL hLe
              · simp only [if_pos hmerge]
                rw [List.getLast?_concat]
              · simp only [if_pos hmerge]
                have h1 : 1 ≤ rs.length := List.length_pos.mpr hrs
                have hlen : (rs.dropLast ++ [p.2]).length = rs.length := by
                  simp only [List.length_append, List.length_dropLast,
                    List.length_cons, List.length_nil]
                  omega
                rw [hlen]
            · have hgap : L + MIN_RANGE_GAP ≤ p.1 := by omega
              refine ⟨?_, ?_, ?_⟩
              · simp only [if_neg hmerge]
                exact rangePairsOrdered_append_pair rs L p.1 p.2 hord hL hgap hp
              · simp only [if_neg hmerge]
                exact getLast?_append_pair rs p.1 p.2
              · simp only [if_neg hmerge, List.length_append, List.length_cons,
                  List.length_nil]
                omega
      obtain ⟨hord1, hlast1, hpar1⟩ := hstep
      have hlink1 : ∀ L, (addRange p.1 p.2 rs).getLast? = some L →
          ∀ q, rest.head? = some q → L ≤ q.2 := by
        intro L hL q hq
        rw [hlast1] at hL
        injection hL with hL
        subst hL
        cases rest with
        | nil => simp at hq
        | cons q2 rest2 =>
            simp at hq
            subst hq
            exact List.chain'_cons.mp hmono |>.1
      have := ih (addRange p.1 p.2 rs) hord1 hrest hmono2 hlink1
      simp only [List.foldl_cons]
      exact ⟨this.1, this.2.trans hpar1⟩

/-- C7: any fold of `addRange` calls starting from the empty array —
with every call's `from <= to` and call ends nondecreasing, as the
comparison engine produces them — yields an even-length flat array of
pairs `[from, to, ...]` in ascending order in which consecutive pairs
are separated by at least `MIN_RANGE_GAP = 4`; and a single `addRange`
call extends the last pair's end to the new `to` exactly when the
previous pair's end is within `MIN_RANGE_GAP` of `from`, appending a
new pair `[from, to]` otherwise. -/
theorem addRangeFoldWellFormed (calls : List (Int × Int))
    (hft : ∀ p ∈ calls, p.1 ≤ p.2)
    (hmono : List.Chain' (fun p q : Int × Int => p.2 ≤ q.2) calls) :
    Even (foldRanges calls).length ∧
    rangePairsOrdered (foldRanges calls) = true ∧
    (∀ f t (rs : List Int) (L : Int), rs.getLast? = some L →
      addRange f t rs =
        if L + MIN_RANGE_GAP > f then rs.dropLast ++ [t] else rs ++ [f, t]) ∧
    (∀ f t : Int, addRange f t [] = [f, t]) := by
  have h := foldRanges_inv calls [] (by decide) hft hmono (by intro L hL; simp at hL)
  refine ⟨?_, h.1, ?_, fun f t => rfl⟩
  · have := h.2
    simp only [List.length_nil, Nat.zero_mod] at this
    exact Nat.even_iff.mpr this
  · intro f t rs L hL
    unfold addRange
    rw [hL]

/-- Witness for C7: the fold over a concrete monotone call sequence is
even-length, ascending and gap-separated. -/
theorem addRangeFoldWellFormedInstance :
    Even (foldRanges addRangeDemoCalls).length ∧
    rangePairsOrdered (foldRanges addRangeDemoCalls) = true :=
  ⟨(addRangeFoldWellFormed addRangeDemoCalls (by decide)
      (by simp [addRangeDemoCalls, List.chain'_cons])).1,
   (addRangeFoldWellFormed addRangeDemoCalls (by decide)
      (by simp [addRangeDemoCalls, List.chain'_cons])).2.1⟩

mutual
/-- `beq` is reflexive. -/
theorem DecorationSet.beq_refl : (s : DecorationSet) → DecorationSet.beq s s = true
  | .mk l s lo c => by
      simp [DecorationSet.beq, DecorationSet.beqList_refl c]

/-- `beqList` is reflexive. -/
theorem DecorationSet.beqList_refl : (cs : List DecorationSet) →
    DecorationSet.beqList cs cs = true
  | [] => rfl
  | x :: xs => by
      simp [DecorationSet.beqList, DecorationSet.beq_refl x,
        DecorationSet.beqList_refl xs]
end

mutual
/-- `beq` is sound for propositional equality. -/
theorem DecorationSet.beq_eq : (a b : DecorationSet) →
    DecorationSet.beq a b = true → a = b
  | .mk l1 s1 lo1 c1, .mk l2 s2 lo2 c2 => by
      intro h
      simp only [DecorationSet.beq, Bool.and_eq_true, beq_iff_eq] at h
      obtain ⟨⟨⟨h1, h2⟩, h3⟩, h4⟩ := h
      have := DecorationSet.beqList_eq c1 c2 h4
      subst h1; subst h2; subst h3; subst this
      rfl

/-- `beqList` is sound for propositional equality. -/
theorem DecorationSet.beqList_eq : (a b : List DecorationSet) →
    DecorationSet.beqList a b = true → a = b
  | [], [], _ => rfl
  | [], _ :: _, h => by simp [DecorationSet.beqList] at h
  | _ :: _, [], h => by simp [DecorationSet.beqList] at h
  | x :: xs, y :: ys, h => by
      simp only [DecorationSet.beqList, Bool.and_eq_true] at h
      have h1 := DecorationSet.beq_eq x y h.1
      have h2 := DecorationSet.beqList_eq xs ys h.2
      rw [h1, h2]
end

/-- `beq` decides propositional equality. -/
theorem DecorationSet.beq_iff (a b : DecorationSet) :
    DecorationSet.beq a b = true ↔ a = b :=
  ⟨DecorationSet.beq_eq a b, fun h => h ▸ DecorationSet.beq_refl a⟩

/-- C1 (refutation): filtering the 33-range set down to the single
decoration in its second child collapses the tree through
`collapseSet`, which collects child decorations with offset `-off`
instead of `+off`; the resulting set's local array is `[(-32, -31)]`,
violating `0 <= d.from` (the whole-tree invariant checker reports
false). -/
theorem updateBreaksLocalBounds :
    ((DecorationSet.of 64 c1Decorations).bind
        (fun s => s.update 64 [] (some keepOnly32))).map
      (fun s => (wfInvariant s, s.locals.map (fun d => (d.dFrom, d.dTo)))) =
      some (false, [(-32, -31)]) ∧
    c1Decorations.all (fun d => decide (d.dFrom < d.dTo)) = true := by
  exact ⟨by decide, by decide⟩

/-- C2 (refutation): updating the 33-range set with a filter keeping
the decorations `(31, 32)` and `(32, 33)` must, per the claim, return a
set enumerating exactly those two decorations at their old positions;
the code instead enumerates `(31, 32)` and `(-32, -31)` — the kept
decoration of the second child is re-collected at a negative position
by `collapseSet`, and `(32, 33)` is absent. -/
theorem updateCollectMisplacesKeptDecorations :
    ((DecorationSet.of 64 c1Decorations).bind
        (fun s => s.update 64 [] (some keep31or32))).map
      (fun s => (s.collect [] 0).map (fun d => (d.dFrom, d.dTo))) =
      some [(31, 32), (-32, -31)] ∧
    ((DecorationSet.of 64 c1Decorations).bind
        (fun s => s.update 64 [] (some keep31or32))).map
      (fun s => ((s.collect [] 0).map (fun d => (d.dFrom, d.dTo))).contains
        (32, 33)) = some false := by
  exact ⟨by decide, by decide⟩

/-- A filter that keeps everything leaves `filterDecorationsGo`'s copy
unallocated. -/
theorem filterDecorationsGo_keepAll (f : DecorationFilter)
    (hf : ∀ a b c, f a b c = true) (ff ft off : Int) :
    ∀ (l seen : List Decoration), filterDecorationsGo f ff ft off l none seen = none := by
  intro l
  induction l with
  | nil => intro seen; rfl
  | cons d rest ih =>
      intro seen
      unfold filterDecorationsGo
      rw [if_pos (Or.inr (Or.inr (hf (d.dFrom + off) (d.dTo + off) d.spec)))]
      exact ih (seen ++ [d])

/-- Core of C6: with no additions and an all-keeping filter, both
`updateInner` (returning its receiver through the early exit) and its
child loop (leaving every accumulator unallocated) are no-ops, for any
fuel at least the traversal cost. -/
theorem updateInner_noop (f : DecorationFilter) (hf : ∀ a b c, f a b c = true) :
    ∀ fuel : Nat,
      (∀ (s : DecorationSet) (ff ft off len : Int), updFuel s ≤ fuel →
        updateInner fuel s [] (some f) ff ft off len = some s) ∧
      (∀ (children done : List DecorationSet) (ff ft off pos : Int)
          (thisLocals : List Decoration) (size : Int),
        updFuelList children ≤ fuel →
        updateChildren fuel children done [] (some f) ff ft off pos none thisLocals
          none size =
        some (none, none, size + sumSizes children, [], pos + sumLengths children)) := by
  intro fuel
  induction fuel with
  | zero =>
      constructor
      · intro s ff ft off len hfuel
        exact absurd hfuel (by cases s; simp [updFuel])
      · intro children done ff ft off pos thisLocals size hfuel
        exact absurd hfuel (by cases children <;> simp [updFuelList])
  | succ g ih =>
      constructor
      · intro s ff ft off len hfuel
        cases s with
        | mk l sz lo cs =>
            have hcs : updFuelList cs ≤ g := by
              simp only [updFuel] at hfuel; omega
            unfold updateInner
            simp only [DecorationSet.locals, DecorationSet.children]
            have hl0 : filterDecorations lo (some f) ff ft off = none := by
              unfold filterDecorations
              exact filterDecorationsGo_keepAll f hf ff ft off lo []
            rw [hl0]
            rw [ih.2 cs [] ff ft off off lo 0 hcs]
            simp
      · intro children done ff ft off pos thisLocals size hfuel
        cases children with
        | nil =>
            simp [updateChildren, sumSizes, sumLengths]
        | cons child rest =>
            have hb : updFuel child ≤ g ∧ updFuelList rest ≤ g := by
              simp only [updFuelList] at hfuel
              omega
            have hui := ih.1 child ff ft pos child.length hb.1
            have hrest := ih.2 rest (done ++ [child]) ff ft off (pos + child.length)
              thisLocals (size + child.size) hb.2
            simp only [updateChildren, consumeDecorations, Option.isSome_none,
              Bool.false_or, Option.isSome_some, Bool.true_and, Option.getD_none]
            split
            · rename_i heq
              exfalso
              split at heq
              · rw [hui] at heq
                exact Option.noConfusion heq
              · exact Option.noConfusion heq
            · rename_i newChild heq
              have hnc : newChild = child := by
                split at heq
                · rw [hui] at heq
                  exact ((Option.some.injEq _ _).mp heq).symm
                · exact ((Option.some.injEq _ _).mp heq).symm
              subst hnc
              simp only [DecorationSet.beq_refl, if_true]
              rw [hrest]
              simp [sumSizes, sumLengths, add_assoc]

/-- C6: `s.update([], f)` with a filter that keeps every decoration
returns the receiver itself — the update takes the early-exit branch
(`return this`): no local changed, every child call returns its own
receiver, and no additions remain.  Stated for any fuel beyond the
traversal cost; object identity is modelled as structural equality. -/
theorem updateNoopFilterReturnsReceiver (fuel : Nat) (s : DecorationSet)
    (f : DecorationFilter) (hf : ∀ a b c, f a b c = true)
    (hfuel : updFuel s < fuel) :
    s.update fuel [] (some f) = some s := by
  unfold DecorationSet.update updateFueled
  cases fuel with
  | zero => exact absurd hfuel (by omega)
  | succ g =>
      simp only [List.foldl_nil, List.isEmpty_nil, if_pos]
      exact (updateInner_noop f hf g).1 s 0 s.length 0 s.length (by omega)

/-- Witness for C6 at a concrete two-level set and the constant-true
filter. -/
theorem updateNoopFilterReturnsReceiverInstance :
    noopDemoSet.update 64 [] (some (fun _ _ _ => true)) = some noopDemoSet :=
  updateNoopFilterReturnsReceiver 64 noopDemoSet (fun _ _ _ => true)
    (fun _ _ _ => rfl) (by decide)

/-- Removing the child at `idx` subtracts its length from the total. -/
theorem sumLengths_eraseIdx (l : List DecorationSet) (idx : Nat)
    (h : idx < l.length) :
    sumLengths (l.eraseIdx idx) =
      sumLengths l - (l.getD idx DecorationSet.empty).length := by
  induction l generalizing idx with
  | nil => simp at h
  | cons c rest ih =>
      cases idx with
      | zero => simp [List.eraseIdx, sumLengths]
      | succ k =>
          have : k < rest.length := by simpa using h
          simp only [List.eraseIdx, sumLengths, List.getD_cons_succ]
          rw [ih k this]
          ring

/-- Growing the child at `idx` by `delta` adds `delta` to the total. -/
theorem sumLengths_set_grow (l : List DecorationSet) (idx : Nat) (delta : Int)
    (h : idx < l.length) :
    sumLengths (l.set idx ((l.getD idx DecorationSet.empty).grow delta)) =
      sumLengths l + delta := by
  induction l generalizing idx with
  | nil => simp at h
  | cons c rest ih =>
      cases idx with
      | zero =>
          simp [List.set, sumLengths, DecorationSet.grow, DecorationSet.length]
          ring
      | succ k =>
          have : k < rest.length := by simpa using h
          simp only [List.set, sumLengths, List.getD_cons_succ]
          rw [ih k this]
          ring

/-- A negative loop index faults on the next iteration (the JS loop
reads `children[-1]`). -/
theorem rebalanceLoop_neg (fuel : Nat) (i off : Int) (locals : List Decoration)
    (children : List DecorationSet) (childSize : Int) (hi : i < 0) :
    rebalanceLoop fuel i off locals children childSize = none := by
  cases fuel with
  | zero => rfl
  | succ g =>
      unfold rebalanceLoop
      rw [if_neg (by
        have : (0 : Int) ≤ (children.length : Int) := Int.ofNat_nonneg _
        omega)]
      rw [if_pos hi]

/-- C8 (amended): in `rebalanceChildren`, a child of size 0 is removed
by the drop rule exactly when its index is positive or it is the sole
remaining child.  At a positive index, the step removes the child and
grows the immediately preceding child's length by the removed child's
length, so the total text length covered by the children array is
preserved, and the loop continues at the previous index.  When the sole
child is dropped, there is no preceding child to grow and the loop
index becomes `-1`, so the next iteration faults reading
`children[-1]`. -/
theorem rebalanceDropEmptyCharacterization (fuel : Nat) (i off : Int)
    (locals : List Decoration) (children : List DecorationSet) (childSize : Int)
    (child : DecorationSet)
    (hi0 : 0 ≤ i) (hilt : i < (children.length : Int))
    (hget : children.getD i.toNat DecorationSet.empty = child)
    (hsize : child.size = 0) :
    (0 < i →
      rebalanceLoop (fuel + 1) i off locals children childSize =
        rebalanceLoop fuel (i - 1) off locals
          ((children.eraseIdx i.toNat).set (i - 1).toNat
            (((children.eraseIdx i.toNat).getD (i - 1).toNat
                DecorationSet.empty).grow child.length)) childSize ∧
      sumLengths ((children.eraseIdx i.toNat).set (i - 1).toNat
          (((children.eraseIdx i.toNat).getD (i - 1).toNat
              DecorationSet.empty).grow child.length)) = sumLengths children) ∧
    (i = 0 → children.length = 1 →
      rebalanceLoop (fuel + 1) i off locals children childSize = none) := by
  have hlen : i.toNat < children.length := by omega
  constructor
  · intro hipos
    constructor
    · simp only [rebalanceLoop]
      rw [if_neg (by omega), if_neg (by omega), hget,
        if_pos (⟨hsize, Or.inl hipos⟩ :
          child.size = 0 ∧ (i > 0 ∨ children.length = 1))]
      have h2 : i - 1 ≥ (0 : Int) := by omega
      simp only [if_pos h2]
    · have herase : (children.eraseIdx i.toNat).length = children.length - 1 := by
        simp [List.length_eraseIdx, hlen]
      have hprev : (i - 1).toNat < (children.eraseIdx i.toNat).length := by
        omega
      rw [sumLengths_set_grow _ _ _ hprev, sumLengths_eraseIdx _ _ hlen, hget]
      ring
  · intro hz hone
    simp only [rebalanceLoop]
    rw [if_neg (by omega), if_neg (by omega), hget,
      if_pos (⟨hsize, Or.inr hone⟩ :
        child.size = 0 ∧ (i > 0 ∨ children.length = 1))]
    have h2 : ¬ (i - 1 ≥ (0 : Int)) := by omega
    simp only [if_neg h2]
    exact rebalanceLoop_neg fuel (i - 1) off locals _ childSize (by omega)

/-- Witness for the C8 amended characterization at a concrete loop
state: children `[leaf(3, 1), empty(5, 0)]`, index 1. -/
theorem rebalanceDropEmptyCharacterizationInstance :
    (0 < (1 : Int) →
      rebalanceLoop 11 1 0 []
          [DecorationSet.mk 3 1 [⟨0, 1, .rangeDesc false false 0⟩] [],
           DecorationSet.mk 5 0 [] []] 32 =
        rebalanceLoop 10 0 0 []
          (([DecorationSet.mk 3 1 [⟨0, 1, .rangeDesc false false 0⟩] [],
             DecorationSet.mk 5 0 [] []].eraseIdx 1).set 0
            ((([DecorationSet.mk 3 1 [⟨0, 1, .rangeDesc false false 0⟩] [],
                DecorationSet.mk 5 0 [] []].eraseIdx 1).getD 0
                DecorationSet.empty).grow (DecorationSet.mk 5 0 [] []).length)) 32 ∧
      sumLengths (([DecorationSet.mk 3 1 [⟨0, 1, .rangeDesc false false 0⟩] [],
          DecorationSet.mk 5 0 [] []].eraseIdx 1).set 0
          ((([DecorationSet.mk 3 1 [⟨0, 1, .rangeDesc false false 0⟩] [],
              DecorationSet.mk 5 0 [] []].eraseIdx 1).getD 0
              DecorationSet.empty).grow (DecorationSet.mk 5 0 [] []).length)) =
        sumLengths [DecorationSet.mk 3 1 [⟨0, 1, .rangeDesc false false 0⟩] [],
          DecorationSet.mk 5 0 [] []]) ∧
    ((1 : Int) = 0 →
      [DecorationSet.mk 3 1 [⟨0, 1, .rangeDesc false false 0⟩] [],
        DecorationSet.mk 5 0 [] []].length = 1 →
      rebalanceLoop 11 1 0 []
        [DecorationSet.mk 3 1 [⟨0, 1, .rangeDesc false false 0⟩] [],
         DecorationSet.mk 5 0 [] []] 32 = none) :=
  rebalanceDropEmptyCharacterization 10 1 0 []
    [DecorationSet.mk 3 1 [⟨0, 1, .rangeDesc false false 0⟩] [],
     DecorationSet.mk 5 0 [] []] 32 (DecorationSet.mk 5 0 [] [])
    (by decide) (by decide) rfl rfl

/-- C8 (refutation of the claim as stated): the size-0 first child of a
two-child array is *not* the sole remaining child, so per the claim it
must be removed; `rebalanceChildren` instead wraps it (still size 0)
inside the joined node it builds, so the rebalanced tree still contains
it. -/
theorem rebalanceKeepsEmptyFirstChild :
    rebalanceChildren 50 [] [emptyChildDemo, nonLeafSibling] 32 =
      some ([], [.mk 15 2 [] [emptyChildDemo, nonLeafSibling]]) ∧
    (rebalanceChildren 50 [] [emptyChildDemo, nonLeafSibling] 32).map
      (fun p => p.2.any (fun c => c.children.any (fun cc => cc.size == 0))) =
      some true := by
  exact ⟨rfl, rfl⟩

/-- One-step unfolding of `mapChildren` through `mapStepState`. -/
theorem mapChildren_cons_eq (changes : List Change) (thisLocals : List Decoration)
    (newStart newLength : Int) (total : Nat) (child : DecorationSet)
    (rest done : List DecorationSet) (oldPos newPos : Int) (st : MapChildState) :
    mapChildren changes thisLocals newStart newLength total (child :: rest) done
      oldPos newPos st =
    mapChildren changes thisLocals newStart newLength total rest (done ++ [child])
      (oldPos + child.length) (mapPos (oldPos + child.length) changes 1)
      (mapStepState changes thisLocals newStart newLength total child done oldPos
        newPos st) := rfl

/-- `containsLike` only depends on the `newChildren` component. -/
theorem containsLike_congr (c : DecorationSet) (st st2 : MapChildState)
    (done : List DecorationSet) (h : st2.newChildren = st.newChildren)
    (hc : containsLike c st done) : containsLike c st2 done := by
  unfold containsLike at hc ⊢
  rw [h]
  exact hc

/-- `containsLike` is monotone in `done`. -/
theorem containsLike_mono (c : DecorationSet) (st : MapChildState)
    (done done2 : List DecorationSet) (h : ∀ x ∈ done, x ∈ done2)
    (hc : containsLike c st done) : containsLike c st done2 := by
  unfold containsLike at hc ⊢
  rcases hc with ⟨h1, h2⟩ | h3
  · exact Or.inl ⟨h1, h c h2⟩
  · exact Or.inr h3

/-- An escapee step never touches the new-children array. -/
theorem mapEscapeStep_newChildren (tl : List Decoration) (ns nl np : Int)
    (acc : MapChildState) (d : Decoration) :
    (mapEscapeStep tl ns nl np acc d).newChildren = acc.newChildren := by
  simp only [mapEscapeStep]
  split <;> rfl

/-- Folding escapee steps never touches the new-children array. -/
theorem foldl_mapEscapeStep_newChildren (tl : List Decoration) (ns nl np : Int) :
    ∀ (l : List Decoration) (acc : MapChildState),
      (l.foldl (mapEscapeStep tl ns nl np) acc).newChildren = acc.newChildren := by
  intro l
  induction l with
  | nil => intro acc; rfl
  | cons d rest ih =>
      intro acc
      rw [List.foldl_cons, ih, mapEscapeStep_newChildren]

/-- A list with a known last element decomposes as `dropLast ++ [last]`. -/
theorem dropLast_append_of_getLast? {α : Type _} :
    ∀ (l : List α) (a : α), l.getLast? = some a → l.dropLast ++ [a] = l := by
  intro l
  induction l with
  | nil => intro a h; simp at h
  | cons x xs ih =>
      intro a h
      cases xs with
      | nil =>
          simp at h
          subst h
          rfl
      | cons y ys =>
          rw [List.getLast?_cons_cons] at h
          have h2 := ih a h
          show x :: ((y :: ys).dropLast ++ [a]) = x :: y :: ys
          rw [h2]

/-- Growing the last element of the accumulated new-children array
keeps a node with `c`'s fields in it (growing changes only the
length). -/
theorem growLast_keeps (c : DecorationSet) (l : List DecorationSet) (delta : Int)
    (h : ∃ x ∈ l, x.locals = c.locals ∧ x.children = c.children ∧ x.size = c.size) :
    ∃ x ∈ (match l.getLast? with
      | some lastChild => l.dropLast ++
          [DecorationSet.mk (lastChild.length + delta) lastChild.size
            lastChild.locals lastChild.children]
      | none => l),
      x.locals = c.locals ∧ x.children = c.children ∧ x.size = c.size := by
  obtain ⟨x, hx, hsf⟩ := h
  cases hl : l.getLast? with
  | none => exact ⟨x, hx, hsf⟩
  | some lastChild =>
      have hdec : l.dropLast ++ [lastChild] = l := dropLast_append_of_getLast? l _ hl
      rw [← hdec] at hx
      rcases List.mem_append.mp hx with hx1 | hx2
      · exact ⟨x, List.mem_append_left _ hx1, hsf⟩
      · have hxl : x = lastChild := by simpa using hx2
        subst hxl
        exact ⟨DecorationSet.mk (x.length + delta) x.size x.locals x.children,
          List.mem_append_right _ (by simp), hsf.1, hsf.2.1, hsf.2.2⟩

/-- The bookkeeping step preserves the C9 invariant for an arbitrary
new child. -/
theorem childrenBookkeeping_keeps (c newChild child : DecorationSet)
    (st1 : MapChildState) (done : List DecorationSet) (total : Nat)
    (h : containsLike c st1 done) :
    containsLike c (childrenBookkeeping newChild child st1 done total)
      (done ++ [child]) := by
  have hacc : ∃ x ∈ st1.newChildren.getD done,
      x.locals = c.locals ∧ x.children = c.children ∧ x.size = c.size := by
    rcases h with ⟨h1, h2⟩ | ⟨l, hl, x, hx, hsf⟩
    · rw [h1]; exact ⟨c, h2, rfl, rfl, rfl⟩
    · rw [hl]; exact ⟨x, hx, hsf⟩
  simp only [childrenBookkeeping]
  split
  · -- newChild differs from child
    split
    · -- size-0 drop case: the accumulated array keeps its witness
      refine Or.inr ⟨_, rfl, ?_⟩
      split
      · exact growLast_keeps c _ newChild.length hacc
      · exact hacc
    · -- push case
      refine Or.inr ⟨_, rfl, ?_⟩
      obtain ⟨x, hx, hsf⟩ := hacc
      exact ⟨x, List.mem_append_left _ hx, hsf⟩
  · -- newChild equals child
    split
    · -- the accumulated array exists: push
      rename_i cs hcs
      refine Or.inr ⟨_, rfl, ?_⟩
      rcases h with ⟨h1, _⟩ | ⟨l, hl, x, hx, hsf⟩
      · rw [h1] at hcs
        exact Option.noConfusion hcs
      · rw [hl] at hcs
        injection hcs with hcs
        subst hcs
        exact ⟨x, List.mem_append_left _ hx, hsf⟩
    · -- no array yet: the state is unchanged
      rename_i hnone
      rcases h with ⟨h1, h2⟩ | ⟨l, hl, hx⟩
      · exact Or.inl ⟨h1, List.mem_append_left _ h2⟩
      · rw [hl] at hnone
        exact Option.noConfusion hnone

/-- `childrenBookkeeping` with an unchanged child: the child itself is
pushed (or the unallocated state keeps it among the passed originals). -/
theorem childrenBookkeeping_self (c : DecorationSet) (st : MapChildState)
    (done : List DecorationSet) (total : Nat) :
    containsLike c (childrenBookkeeping c c st done total) (done ++ [c]) := by
  simp only [childrenBookkeeping]
  rw [if_neg (not_not_intro (DecorationSet.beq_refl c))]
  split
  · rename_i cs hcs
    exact Or.inr ⟨cs ++ [c], rfl, c, List.mem_append_right _ (by simp),
      rfl, rfl, rfl⟩
  · rename_i hnone
    exact Or.inl ⟨hnone, List.mem_append_right _ (by simp)⟩

/-- `childrenBookkeeping` with a length-adjusted copy of the child: the
copy (same locals, children and size) is pushed, because a non-zero
size rules out the drop case. -/
theorem childrenBookkeeping_copy (c newChild : DecorationSet)
    (st : MapChildState) (done : List DecorationSet) (total : Nat)
    (hne : ¬ DecorationSet.beq newChild c = true)
    (hlocals : newChild.locals = c.locals) (hch : newChild.children = c.children)
    (hsz : newChild.size = c.size) (hsize : c.size ≠ 0) :
    containsLike c (childrenBookkeeping newChild c st done total)
      (done ++ [c]) := by
  simp only [childrenBookkeeping]
  rw [if_pos hne]
  rw [if_neg (by
    intro hcontra
    exact hsize (hsz ▸ hcontra.1))]
  exact Or.inr ⟨_, rfl, newChild, List.mem_append_right _ (by simp),
    hlocals, hch, hsz⟩

/-- One loop iteration preserves the C9 invariant. -/
theorem mapStepState_keeps (c : DecorationSet) (changes : List Change)
    (thisLocals : List Decoration) (newStart newLength : Int) (total : Nat)
    (child : DecorationSet) (done : List DecorationSet) (oldPos newPos : Int)
    (st : MapChildState) (h : containsLike c st done) :
    containsLike c
      (mapStepState changes thisLocals newStart newLength total child done oldPos
        newPos st) (done ++ [child]) := by
  simp only [mapStepState]
  exact containsLike_congr c _ _ _ rfl
    (childrenBookkeeping_keeps c _ child _ done total
      (containsLike_congr c st _ done
        (foldl_mapEscapeStep_newChildren _ _ _ _ _ _) h))

/-- The loop iteration on an untouched, non-empty child establishes the
C9 invariant: the child it hands to the bookkeeping is the child itself
(when the mapped extent is unchanged) or a length-adjusted copy with
the same locals, children and size. -/
theorem mapStepState_establishes (c : DecorationSet) (changes : List Change)
    (thisLocals : List Decoration) (newStart newLength : Int) (total : Nat)
    (done : List DecorationSet) (oldPos newPos : Int) (st : MapChildState)
    (huntouched : touchesChange oldPos (oldPos + c.length) changes = false)
    (hsize : c.size ≠ 0) :
    containsLike c
      (mapStepState changes thisLocals newStart newLength total c done oldPos
        newPos st) (done ++ [c]) := by
  simp only [mapStepState]
  rw [if_neg (by simp [huntouched])]
  by_cases hlen : mapPos (oldPos + c.length) changes 1 - newPos =
      oldPos + c.length - oldPos
  · rw [if_neg (not_not_intro hlen)]
    exact containsLike_congr c _ _ _ rfl (childrenBookkeeping_self c _ done total)
  · rw [if_pos hlen]
    have hne : ¬ DecorationSet.beq
        (DecorationSet.mk (mapPos (oldPos + c.length) changes 1 - newPos) c.size
          c.locals c.children) c = true := by
      intro hb
      have heq := DecorationSet.beq_eq _ _ hb
      have hl := congrArg DecorationSet.length heq
      apply hlen
      simp only [DecorationSet.length] at hl ⊢
      omega
    exact containsLike_congr c _ _ _ rfl
      (childrenBookkeeping_copy c _ _ done total hne rfl rfl rfl hsize)

/-- The child loop preserves the C9 invariant across any suffix. -/
theorem mapChildren_keeps (c : DecorationSet) (changes : List Change)
    (thisLocals : List Decoration) (newStart newLength : Int) (total : Nat) :
    ∀ (lst done : List DecorationSet) (oldPos newPos : Int) (st : MapChildState),
      containsLike c st done →
      containsLike c
        (mapChildren changes thisLocals newStart newLength total lst done oldPos
          newPos st) (done ++ lst) := by
  intro lst
  induction lst with
  | nil =>
      intro done oldPos newPos st h
      simpa [mapChildren] using h
  | cons child rest ih =>
      intro done oldPos newPos st h
      rw [mapChildren_cons_eq]
      have h1 := mapStepState_keeps c changes thisLocals newStart newLength total
        child done oldPos newPos st h
      have h2 := ih (done ++ [child]) (oldPos + child.length)
        (mapPos (oldPos + child.length) changes 1) _ h1
      simpa [List.append_assoc] using h2

/-- Running the child loop over `pre ++ c :: post`, where no change
touches `c`'s old extent, leaves a node with `c`'s fields in the
result. -/
theorem mapChildren_contains (c : DecorationSet) (changes : List Change)
    (thisLocals : List Decoration) (newStart newLength : Int) (total : Nat)
    (post : List DecorationSet) (hsize : c.size ≠ 0) :
    ∀ (pre done : List DecorationSet) (oldPos newPos : Int) (st : MapChildState),
      touchesChange (oldPos + sumLengths pre)
        (oldPos + sumLengths pre + c.length) changes = false →
      containsLike c
        (mapChildren changes thisLocals newStart newLength total
          (pre ++ c :: post) done oldPos newPos st)
        (done ++ (pre ++ c :: post)) := by
  intro pre
  induction pre with
  | nil =>
      intro done oldPos newPos st huntouched
      simp only [sumLengths, add_zero] at huntouched
      simp only [List.nil_append]
      rw [mapChildren_cons_eq]
      have h1 := mapStepState_establishes c changes thisLocals newStart newLength
        total done oldPos newPos st huntouched hsize
      have h2 := mapChildren_keeps c changes thisLocals newStart newLength total
        post (done ++ [c]) (oldPos + c.length)
        (mapPos (oldPos + c.length) changes 1) _ h1
      simpa [List.append_assoc] using h2
  | cons p pre' ih =>
      intro done oldPos newPos st huntouched
      have e : oldPos + sumLengths (p :: pre') =
          oldPos + p.length + sumLengths pre' := by
        simp only [sumLengths]
        ring
      rw [e] at huntouched
      rw [List.cons_append, mapChildren_cons_eq]
      have h2 := ih (done ++ [p]) (oldPos + p.length)
        (mapPos (oldPos + p.length) changes 1)
        (mapStepState changes thisLocals newStart newLength total p done oldPos
          newPos st) huntouched
      simpa [List.append_assoc] using h2

/-- C9: in `set.map(changes)`, a child subtree whose old range
`[oldPos, oldPos + child.length]` (as decided by `touchesChange`) is
touched by no change is reused: the result contains a child with the
same local decorations, the same children and the same size — only its
covered length may be adjusted when the mapped end position differs.
Stated for subtrees holding at least one decoration (a size-0 subtree
carries nothing to reuse and may instead be merged away). -/
theorem mapReusesUntouchedChildren (s : DecorationSet) (changes : List Change)
    (pre post : List DecorationSet) (c : DecorationSet)
    (hsplit : s.children = pre ++ c :: post)
    (huntouched : touchesChange (sumLengths pre) (sumLengths pre + c.length)
      changes = false)
    (hsize : c.size ≠ 0) :
    ∃ c2 ∈ (DecorationSet.map s changes).children,
      c2.locals = c.locals ∧ c2.children = c.children ∧ c2.size = c.size := by
  have hmem : c ∈ s.children := by
    rw [hsplit]
    exact List.mem_append_right _ (by simp)
  unfold DecorationSet.map
  split
  · exact ⟨c, hmem, rfl, rfl, rfl⟩
  · cases s with
    | mk len sz lo cs =>
        simp only [DecorationSet.children] at hsplit hmem
        simp only [mapInner]
        have hu0 : touchesChange (0 + sumLengths pre)
            (0 + sumLengths pre + c.length) changes = false := by
          simpa using huntouched
        have hcl := mapChildren_contains c changes lo 0
          (mapPos (DecorationSet.mk len sz lo cs).length changes 1 - 0)
          cs.length post hsize pre [] 0 0
          ⟨none, (mapLocals changes 0 0
            (mapPos (DecorationSet.mk len sz lo cs).length changes 1 - 0) lo []
            none none).1,
           (mapLocals changes 0 0
            (mapPos (DecorationSet.mk len sz lo cs).length changes 1 - 0) lo []
            none none).2, 0⟩ hu0
        rw [← hsplit] at hcl
        split
        · exact ⟨c, hmem, rfl, rfl, rfl⟩
        · rcases hcl with ⟨hnone, _⟩ | ⟨l, hsome, x, hx, hsf⟩
          · rw [hnone]
            exact ⟨c, hmem, rfl, rfl, rfl⟩
          · rw [hsome]
            exact ⟨x, hx, hsf⟩

/-- Witness for C9: a change inside the second child leaves the first
child reused in the mapped set. -/
theorem mapReusesUntouchedChildrenInstance :
    ∃ c2 ∈ (DecorationSet.map mapDemoSet [⟨6, 7, 0⟩]).children,
      c2.locals = (DecorationSet.mk 4 1 [⟨0, 1, .rangeDesc false false 0⟩] []).locals ∧
      c2.children = (DecorationSet.mk 4 1 [⟨0, 1, .rangeDesc false false 0⟩] []).children ∧
      c2.size = (DecorationSet.mk 4 1 [⟨0, 1, .rangeDesc false false 0⟩] []).size :=
  mapReusesUntouchedChildren mapDemoSet [⟨6, 7, 0⟩] []
    [.mk 6 1 [⟨0, 2, .rangeDesc false false 0⟩] []]
    (.mk 4 1 [⟨0, 1, .rangeDesc false false 0⟩] []) rfl (by decide) (by decide)

/-- The driver always ends with the final comparison when the trailing
region is non-empty, regardless of the starting positions. -/
theorem changedRangesGo_final (a b : DecorationSet) :
    ∀ (textDiff : List ChangedRange) (oldPos newPos : Int),
      ((diffEndPositionsFrom textDiff (oldPos, newPos)).1 < a.length ∨
        (diffEndPositionsFrom textDiff (oldPos, newPos)).2 < b.length) →
      ∃ pre, changedRangesComparisonsGo a b textDiff oldPos newPos =
        pre ++ [((diffEndPositionsFrom textDiff (oldPos, newPos)).1,
          (diffEndPositionsFrom textDiff (oldPos, newPos)).2,
          max (a.length - (diffEndPositionsFrom textDiff (oldPos, newPos)).1 +
            (diffEndPositionsFrom textDiff (oldPos, newPos)).2) b.length)] := by
  intro textDiff
  induction textDiff with
  | nil =>
      intro oldPos newPos h
      refine ⟨[], ?_⟩
      simp only [diffEndPositionsFrom, List.foldl_nil] at h ⊢
      simp [changedRangesComparisonsGo, h]
  | cons r rest ih =>
      intro oldPos newPos h
      have he : diffEndPositionsFrom (r :: rest) (oldPos, newPos) =
          diffEndPositionsFrom rest (r.toA, r.toB) := by
        simp [diffEndPositionsFrom]
      rw [he] at h ⊢
      obtain ⟨pre, hpre⟩ := ih r.toA r.toB h
      refine ⟨(if r.fromB > newPos ∧ (¬ DecorationSet.beq a b ∨ oldPos ≠ newPos)
        then [(oldPos, newPos, r.fromB)] else []) ++ pre, ?_⟩
      simp only [changedRangesComparisonsGo, hpre, List.append_assoc]

/-- C10: after consuming the text diff, whenever `oldPos < this.length`
or `newPos < other.length`, `changedRanges` runs one final comparison
from `(oldPos, newPos)` ending at `max(this.length - oldPos + newPos,
other.length)`; in particular on an empty text diff the two sets are
compared once, over their full length, starting from position 0 — so
decorations added or removed with no accompanying document change are
still compared. -/
theorem changedRangesFinalComparison (a b : DecorationSet)
    (textDiff : List ChangedRange)
    (h : (diffEndPositions textDiff).1 < a.length ∨
      (diffEndPositions textDiff).2 < b.length) :
    (∃ pre, changedRangesComparisons a b textDiff =
      pre ++ [((diffEndPositions textDiff).1, (diffEndPositions textDiff).2,
        max (a.length - (diffEndPositions textDiff).1 +
          (diffEndPositions textDiff).2) b.length)]) ∧
    (textDiff = [] →
      changedRangesComparisons a b textDiff = [(0, 0, max a.length b.length)]) := by
  constructor
  · exact changedRangesGo_final a b textDiff 0 0 h
  · intro hnil
    subst hnil
    have h0 : (0 : Int) < a.length ∨ (0 : Int) < b.length := by
      simpa [diffEndPositions, diffEndPositionsFrom] using h
    simp only [changedRangesComparisons, changedRangesComparisonsGo]
    rw [if_pos h0]
    norm_num

/-- Witness for C10: a one-decoration set against the empty set with an
empty text diff is compared once over the full length. -/
theorem changedRangesFinalComparisonInstance :
    (∃ pre, changedRangesComparisons noopDemoSet DecorationSet.empty [] =
      pre ++ [((diffEndPositions []).1, (diffEndPositions []).2,
        max (noopDemoSet.length - (diffEndPositions []).1 +
          (diffEndPositions []).2) DecorationSet.empty.length)]) ∧
    (([] : List ChangedRange) = [] →
      changedRangesComparisons noopDemoSet DecorationSet.empty [] =
        [(0, 0, max noopDemoSet.length DecorationSet.empty.length)]) :=
  changedRangesFinalComparison noopDemoSet DecorationSet.empty []
    (Or.inl (by decide))
